import Mathlib

/-!
Verification of the chunking and two-stage summarization pipeline of the
pdf_summarizer repository.

Text is modelled as `List Char`.  The functions below are shallow embeddings
of the Python source:

* `replaceCRLF`    — `text.replace("\r\n", "\n")` (left-to-right,
                     non-overlapping replacement, as Python's `str.replace`);
* `pyStrip`        — `str.strip()`, restricted to the ASCII whitespace
                     characters (space, tab, LF, CR, VT, FF);
* `rfindChar`      — `str.rfind(c)` for a single-character needle: the largest
                     index of `c`, or `-1` when absent;
* `chunk_text`     — `summarizer.chunk_text`;
* `summarize_uploaded_pdf` — the orchestrator of `streamlit_app.py`, with the
  external collaborators (extractor, Gemini service, SHA-256 fingerprint)
  abstracted as a `Collab` record, the session cache as an association list,
  and an explicit log of the calls the run performs.

The `while` loop of `chunk_text` is embedded with an explicit fuel parameter
(`chunkLoop`); `chunk_text` supplies fuel equal to the text length, which is
shown sufficient for every positive `max_chars` (each iteration strictly
advances the cursor).
-/

/-- ASCII whitespace recognised by Python's `str.strip()`. -/
def isPySpace (c : Char) : Bool :=
  c = ' ' || c = '\t' || c = '\n' || c = '\r' || c = '\x0b' || c = '\x0c'

/-- Python `str.strip()`: remove leading and trailing whitespace. -/
def pyStrip (s : List Char) : List Char :=
  (s.dropWhile isPySpace).rdropWhile isPySpace

/-- Python `text.replace("\r\n", "\n")`: scan left to right, replacing each
(non-overlapping) CR-LF pair by a single LF. -/
def replaceCRLF : List Char → List Char
  | [] => []
  | [c] => [c]
  | a :: b :: rest =>
    if a = '\r' ∧ b = '\n' then '\n' :: replaceCRLF rest
    else a :: replaceCRLF (b :: rest)

/-- Does the string contain a CR-LF pair? -/
def containsCRLF : List Char → Bool
  | [] => false
  | [_] => false
  | a :: b :: rest => (a = '\r' && b = '\n') || containsCRLF (b :: rest)

/-- The normalization `chunk_text` performs on its own input
(summarizer.py line 32): `text.replace("\r\n", "\n").strip()`. -/
def normalizeText (t : List Char) : List Char :=
  pyStrip (replaceCRLF t)

/-- Python `s.rfind(c)` for a one-character needle: the largest index at which
`c` occurs, or `-1` when it does not occur. -/
def rfindChar : List Char → Char → Int
  | [], _ => -1
  | a :: rest, c =>
    if 0 ≤ rfindChar rest c then rfindChar rest c + 1
    else if a = c then 0 else -1

/-- One iteration of the `while` loop of `chunk_text` (summarizer.py lines
41-50): from cursor `i`, the end position of the chunk appended in that
iteration.  `end = min(i + max_chars, n)`; `candidate = text[i:end]`;
`split_pos = max(candidate.rfind("\n"), candidate.rfind("."))`; if
`split_pos > max_chars // 2` then `end = i + split_pos + 1`. -/
def stepEnd (t : List Char) (max_chars i : Nat) : Nat :=
  let e := min (i + max_chars) t.length
  let candidate := (t.drop i).take (e - i)
  let split_pos := max (rfindChar candidate '\n') (rfindChar candidate '.')
  if (max_chars / 2 : Int) < split_pos then i + split_pos.toNat + 1 else e

/-- The `while i < n` loop of `chunk_text`, with explicit fuel: each iteration
appends `text[i:end].strip()` and sets `i = end`. -/
def chunkLoop (t : List Char) (max_chars : Nat) : Nat → Nat → List (List Char)
  | 0, _ => []
  | fuel + 1, i =>
    if i < t.length then
      let e := stepEnd t max_chars i
      pyStrip ((t.drop i).take (e - i)) :: chunkLoop t max_chars fuel e
    else []

/-- Embedding of `summarizer.chunk_text`: normalize, short-circuit when the text fits in
one chunk, otherwise run the cursor loop. -/
def chunk_text (text : List Char) (max_chars : Nat) : List (List Char) :=
  let t := normalizeText text
  if t.length ≤ max_chars then [t]
  else chunkLoop t max_chars t.length 0

/-- The external collaborators of the orchestrator: the PDF text extractor,
the Gemini summarize/aggregate calls (which may fail), and the SHA-256
fingerprint of the raw uploaded bytes. -/
structure Collab where
  extract_text : List Nat → List Char
  summarize_chunk : List Char → Nat → Except String (List Char)
  aggregate_summaries : List (List Char) → Nat → Except String (List Char)
  file_hash_bytes : List Nat → Nat

/-- The calls a pipeline run performs, in order. -/
inductive Call where
  | extractCall : Call
  | chunkCall : Call
  | mapCall : Nat → Call
  | reduceCall : Call
deriving DecidableEq, Repr

/-- The errors a pipeline run can abort with (streamlit_app.py lines 58-59,
75-77, and the reduce-stage wrapper of summarizer.py). -/
inductive PipeError where
  | extractionEmpty : PipeError
  | mapFailure : Nat → String → PipeError
  | reduceFailure : String → PipeError
deriving DecidableEq, Repr

/-- The session cache: fingerprint to cached final summary. -/
abbrev Cache := List (Nat × List Char)

/-- The map stage (streamlit_app.py lines 69-80): summarize each chunk in
order; the loop index `i` is 1-based (`enumerate(chunks, start=1)`); a
service failure on chunk `i` aborts with an error naming `i` and carrying
the cause; each success is appended stripped.  Returns the result together
with the log of service calls made. -/
def mapStage (C : Collab) (per_chunk_words : Nat) :
    List (List Char) → Nat → Except PipeError (List (List Char)) × List Call
  | [], _ => (.ok [], [])
  | c :: rest, i =>
    match C.summarize_chunk c per_chunk_words with
    | .error e => (.error (.mapFailure i e), [.mapCall i])
    | .ok s =>
      match mapStage C per_chunk_words rest (i + 1) with
      | (.error err, tr) => (.error err, .mapCall i :: tr)
      | (.ok ss, tr) => (.ok (pyStrip s :: ss), .mapCall i :: tr)

/-- Embedding of `streamlit_app.summarize_uploaded_pdf`: fingerprint the raw bytes, return
the cached summary on a hit; otherwise extract, fail if the extracted text is
empty or whitespace-only, chunk, run the map stage, aggregate, and cache the
final summary.  Returns the result, the log of calls performed, and the
updated cache. -/
def summarize_uploaded_pdf (C : Collab) (cache : Cache)
    (max_chars per_chunk_words target_words : Nat) (file_bytes : List Nat) :
    Except PipeError (List Char) × List Call × Cache :=
  let fh := C.file_hash_bytes file_bytes
  match List.lookup fh cache with
  | some s => (.ok s, [], cache)
  | none =>
    let text := C.extract_text file_bytes
    if pyStrip text = [] then (.error .extractionEmpty, [.extractCall], cache)
    else
      let chunks := chunk_text text max_chars
      match mapStage C per_chunk_words chunks 1 with
      | (.error e, tr) => (.error e, .extractCall :: .chunkCall :: tr, cache)
      | (.ok ss, tr) =>
        match C.aggregate_summaries ss target_words with
        | .error e =>
            (.error (.reduceFailure e),
             .extractCall :: .chunkCall :: (tr ++ [.reduceCall]), cache)
        | .ok fin =>
            (.ok fin, .extractCall :: .chunkCall :: (tr ++ [.reduceCall]),
             (fh, fin) :: cache)

/-- Scenario B input: 7,000 characters with a newline at index 2,900 and a
period at index 3,050, every other character a letter. -/
def scenB : List Char :=
  List.replicate 2900 'a' ++
    '\n' :: (List.replicate 149 'a' ++ '.' :: List.replicate 3949 'a')

/-- Concrete collaborator whose service fails on the chunk `"b"` only. -/
def collabMapFail : Collab :=
  ⟨fun _ => ['a', 'b'],
   fun c _ => if c = ['b'] then .error "quota" else .ok c,
   fun _ _ => .ok [],
   fun _ => 0⟩

/-- Concrete collaborator whose extraction yields only whitespace. -/
def collabBlank : Collab :=
  ⟨fun _ => [' ', '\n'], fun c _ => .ok c, fun _ _ => .ok ['s'], fun _ => 0⟩

/-- Concrete collaborator for which the whole pipeline succeeds. -/
def collabOk : Collab :=
  ⟨fun _ => ['h', 'i'], fun c _ => .ok c, fun _ _ => .ok ['s'], fun _ => 0⟩

/-! ### Facts about `pyStrip` -/

theorem dropWhile_head_false (p : Char → Bool) (l : List Char) :
    ∀ (c : Char) (rest : List Char), l.dropWhile p = c :: rest → p c = false := by
  induction l with
  | nil => intro c rest h; simp [List.dropWhile] at h
  | cons a l ih =>
    intro c rest h
    by_cases ha : p a
    · rw [List.dropWhile_cons_of_pos ha] at h; exact ih c rest h
    · rw [List.dropWhile_cons_of_neg ha] at h
      injection h with h1 _
      subst h1
      simpa using ha

theorem pyStrip_length_le (l : List Char) : (pyStrip l).length ≤ l.length := by
  have h1 : pyStrip l <+: l.dropWhile isPySpace := List.rdropWhile_prefix isPySpace _
  have h2 : l.dropWhile isPySpace <:+ l := List.dropWhile_suffix isPySpace
  exact le_trans h1.length_le h2.length_le

theorem dropWhile_pyStrip (l : List Char) :
    (pyStrip l).dropWhile isPySpace = pyStrip l := by
  rcases hx : pyStrip l with _ | ⟨c, rest⟩
  · simp
  · have hp : pyStrip l <+: l.dropWhile isPySpace := List.rdropWhile_prefix isPySpace _
    rw [hx] at hp
    obtain ⟨tail, ht⟩ := hp
    have hc : isPySpace c = false :=
      dropWhile_head_false isPySpace l c (rest ++ tail) (by rw [← ht]; simp)
    rw [List.dropWhile_cons_of_neg (by simp [hc])]

theorem pyStrip_idem (l : List Char) : pyStrip (pyStrip l) = pyStrip l := by
  show ((pyStrip l).dropWhile isPySpace).rdropWhile isPySpace = pyStrip l
  rw [dropWhile_pyStrip]
  show ((l.dropWhile isPySpace).rdropWhile isPySpace).rdropWhile isPySpace = _
  rw [List.rdropWhile_idempotent]
  rfl

theorem pyStrip_eq_nil_iff (l : List Char) :
    pyStrip l = [] ↔ ∀ c ∈ l, isPySpace c := by
  constructor
  · intro h
    have h2 : ∀ c ∈ l.dropWhile isPySpace, isPySpace c :=
      List.rdropWhile_eq_nil_iff.mp h
    have hd : l.dropWhile isPySpace = [] := by
      rcases hx : l.dropWhile isPySpace with _ | ⟨c, rest⟩
      · rfl
      · have hc : isPySpace c = false := dropWhile_head_false isPySpace l c rest hx
        have hc' : isPySpace c = true := h2 c (by rw [hx]; simp)
        simp [hc] at hc'
    exact List.dropWhile_eq_nil_iff.mp hd
  · intro h
    show (l.dropWhile isPySpace).rdropWhile isPySpace = []
    rw [List.dropWhile_eq_nil_iff.mpr h]
    simp [List.rdropWhile_nil]

/-! ### Facts about `rfindChar` -/

theorem rfindChar_ge (l : List Char) (c : Char) : -1 ≤ rfindChar l c := by
  induction l with
  | nil => simp [rfindChar]
  | cons a rest ih =>
    simp only [rfindChar]
    split
    · omega
    · split <;> omega

theorem rfindChar_lt_length (l : List Char) (c : Char) :
    rfindChar l c < (l.length : Int) := by
  induction l with
  | nil => simp [rfindChar]
  | cons a rest ih =>
    simp only [rfindChar, List.length_cons]
    push_cast
    split
    · omega
    · have := rfindChar_ge rest c
      split <;> omega

theorem rfindChar_of_neg (l : List Char) (c : Char) (h : rfindChar l c < 0) :
    rfindChar l c = -1 := by
  have := rfindChar_ge l c
  omega

theorem rfindChar_append (xs ys : List Char) (c : Char) :
    rfindChar (xs ++ ys) c =
      if 0 ≤ rfindChar ys c then (xs.length : Int) + rfindChar ys c
      else rfindChar xs c := by
  induction xs with
  | nil =>
    simp only [List.nil_append, List.length_nil]
    split
    · omega
    · exact rfindChar_of_neg ys c (by omega)
  | cons a xs ih =>
    simp only [List.cons_append, rfindChar, List.append_eq, ih, List.length_cons]
    split_ifs <;> push_cast <;> omega

theorem rfindChar_replicate (k : Nat) (a c : Char) (h : ¬ a = c) :
    rfindChar (List.replicate k a) c = -1 := by
  induction k with
  | zero => rfl
  | succ k ih => simp [List.replicate_succ, rfindChar, ih, h]

/-! ### Facts about `stepEnd` and `chunkLoop` -/

theorem stepEnd_gt (t : List Char) (mc i : Nat) (hmc : 0 < mc)
    (hi : i < t.length) : i < stepEnd t mc i := by
  simp only [stepEnd]
  split
  · omega
  · omega

theorem candidate_length (t : List Char) (mc i : Nat) (hi : i < t.length) :
    ((t.drop i).take (min (i + mc) t.length - i)).length
      = min (i + mc) t.length - i := by
  simp only [List.length_take, List.length_drop]
  omega

theorem stepEnd_le (t : List Char) (mc i : Nat) (hi : i < t.length) :
    stepEnd t mc i ≤ t.length ∧ stepEnd t mc i - i ≤ mc := by
  simp only [stepEnd]
  have h1 := rfindChar_lt_length ((t.drop i).take (min (i + mc) t.length - i)) '\n'
  have h2 := rfindChar_lt_length ((t.drop i).take (min (i + mc) t.length - i)) '.'
  rw [candidate_length t mc i hi] at h1 h2
  split
  · next hcond =>
    have hdiv : (0 : Int) ≤ (mc : Int) / 2 := by positivity
    have hmax : max (rfindChar ((t.drop i).take (min (i + mc) t.length - i)) '\n')
        (rfindChar ((t.drop i).take (min (i + mc) t.length - i)) '.')
        < ((min (i + mc) t.length - i : Nat) : Int) := max_lt h1 h2
    omega
  · omega

theorem chunkLoop_nil (t : List Char) (mc fuel i : Nat) (h : t.length ≤ i) :
    chunkLoop t mc fuel i = [] := by
  cases fuel with
  | zero => rfl
  | succ fuel => simp [chunkLoop, Nat.not_lt.mpr h]

theorem chunkLoop_fuel_eq (t : List Char) (mc : Nat) (hmc : 0 < mc) :
    ∀ fuel₁ fuel₂ i, t.length - i ≤ fuel₁ → t.length - i ≤ fuel₂ →
      chunkLoop t mc fuel₁ i = chunkLoop t mc fuel₂ i := by
  intro fuel₁
  induction fuel₁ with
  | zero =>
    intro fuel₂ i h1 _
    have h : t.length ≤ i := by omega
    rw [chunkLoop_nil t mc 0 i h, chunkLoop_nil t mc fuel₂ i h]
  | succ fuel ih =>
    intro fuel₂ i h1 h2
    by_cases hi : i < t.length
    · cases fuel₂ with
      | zero => omega
      | succ fuel₂ =>
        simp only [chunkLoop, if_pos hi]
        have hgt := stepEnd_gt t mc i hmc hi
        exact congrArg _ (ih fuel₂ (stepEnd t mc i) (by omega) (by omega))
    · rw [chunkLoop_nil t mc _ i (by omega), chunkLoop_nil t mc _ i (by omega)]

theorem chunkLoop_pieces (t : List Char) (mc : Nat) (hmc : 0 < mc) :
    ∀ fuel i, t.length - i ≤ fuel →
      ∃ pieces : List (List Char),
        pieces.flatten = t.drop i ∧
        chunkLoop t mc fuel i = pieces.map pyStrip ∧
        ∀ p ∈ pieces, p ≠ [] := by
  intro fuel
  induction fuel with
  | zero =>
    intro i h
    refine ⟨[], ?_, rfl, by simp⟩
    simp [List.drop_eq_nil_of_le (show t.length ≤ i by omega)]
  | succ fuel ih =>
    intro i h
    by_cases hi : i < t.length
    · have hgt := stepEnd_gt t mc i hmc hi
      obtain ⟨pieces, hjoin, hloop, hne⟩ := ih (stepEnd t mc i) (by omega)
      refine ⟨(t.drop i).take (stepEnd t mc i - i) :: pieces, ?_, ?_, ?_⟩
      · simp only [List.flatten_cons, hjoin]
        have hdd : t.drop (stepEnd t mc i) = (t.drop i).drop (stepEnd t mc i - i) := by
          rw [List.drop_drop]
          congr 1
          omega
        rw [hdd, List.take_append_drop]
      · simp only [chunkLoop, if_pos hi, hloop, List.map_cons]
      · intro p hp
        rcases List.mem_cons.mp hp with hp | hp
        · subst hp
          have hlen : ((t.drop i).take (stepEnd t mc i - i)).length
              = min (stepEnd t mc i - i) (t.length - i) := by
            simp [List.length_take, List.length_drop]
          intro hnil
          rw [hnil] at hlen
          simp at hlen
          omega
        · exact hne p hp
    · refine ⟨[], ?_, ?_, by simp⟩
      · simp [List.drop_eq_nil_of_le (show t.length ≤ i by omega)]
      · rw [chunkLoop_nil t mc _ i (by omega)]
        rfl

/-! ### Facts about normalization -/

theorem replaceCRLF_of_not_contains (l : List Char)
    (h : containsCRLF l = false) : replaceCRLF l = l := by
  induction l with
  | nil => rfl
  | cons a rest ih =>
    cases rest with
    | nil => rfl
    | cons b rest' =>
      have h' : ¬ (a = '\r' ∧ b = '\n') ∧ containsCRLF (b :: rest') = false := by
        simp only [containsCRLF, Bool.or_eq_false_iff, Bool.and_eq_false_iff] at h
        constructor
        · intro ⟨ha, hb⟩
          rcases h.1 with hc | hc <;> simp [ha, hb] at hc
        · exact h.2
      show (if a = '\r' ∧ b = '\n' then '\n' :: replaceCRLF rest'
            else a :: replaceCRLF (b :: rest')) = a :: b :: rest'
      rw [if_neg h'.1, ih h'.2]

theorem replaceCRLF_of_no_cr (l : List Char) (h : '\r' ∉ l) :
    replaceCRLF l = l := by
  induction l with
  | nil => rfl
  | cons a rest ih =>
    cases rest with
    | nil => rfl
    | cons b rest' =>
      have ha : a ≠ '\r' := fun hc => h (by rw [hc]; exact List.mem_cons_self _ _)
      show (if a = '\r' ∧ b = '\n' then '\n' :: replaceCRLF rest'
            else a :: replaceCRLF (b :: rest')) = a :: b :: rest'
      rw [if_neg (fun hc => ha hc.1), ih (fun hc => h (List.mem_cons_of_mem a hc))]

theorem normalizeText_idem_of (t : List Char)
    (h : containsCRLF (normalizeText t) = false) :
    normalizeText (normalizeText t) = normalizeText t := by
  show pyStrip (replaceCRLF (normalizeText t)) = normalizeText t
  rw [replaceCRLF_of_not_contains _ h]
  exact pyStrip_idem _

/-! ### Evaluation of Scenario B -/

theorem chunkLoop_cons (t : List Char) (mc fuel i : Nat) (hf : 0 < fuel)
    (hi : i < t.length) :
    chunkLoop t mc fuel i =
      pyStrip ((t.drop i).take (stepEnd t mc i - i)) ::
        chunkLoop t mc (fuel - 1) (stepEnd t mc i) := by
  cases fuel with
  | zero => omega
  | succ fuel => simp only [chunkLoop, if_pos hi, Nat.add_sub_cancel]

theorem scenB_length : scenB.length = 7000 := by
  show (List.replicate 2900 'a' ++
      '\n' :: (List.replicate 149 'a' ++ '.' :: List.replicate 3949 'a')).length = 7000
  rw [List.length_append, List.length_cons, List.length_append, List.length_cons,
      List.length_replicate, List.length_replicate, List.length_replicate]

theorem scenB_no_cr : '\r' ∉ scenB := by
  intro h
  rcases List.mem_append.mp h with h | h
  · exact absurd (List.eq_of_mem_replicate h) (by decide)
  · rcases List.mem_cons.mp h with h | h
    · exact absurd h (by decide)
    · rcases List.mem_append.mp h with h | h
      · exact absurd (List.eq_of_mem_replicate h) (by decide)
      · rcases List.mem_cons.mp h with h | h
        · exact absurd h (by decide)
        · exact absurd (List.eq_of_mem_replicate h) (by decide)

theorem pyStrip_eq_self (a b : Char) (m : List Char)
    (ha : isPySpace a = false) (hb : isPySpace b = false) :
    pyStrip (a :: (m ++ [b])) = a :: (m ++ [b]) := by
  show ((a :: (m ++ [b])).dropWhile isPySpace).rdropWhile isPySpace = _
  rw [List.dropWhile_cons_of_neg (by simp [ha])]
  rw [show a :: (m ++ [b]) = (a :: m) ++ [b] from (List.cons_append a m [b]).symm]
  rw [List.rdropWhile_concat_neg _ _ _ (by simp [hb])]

theorem rfindChar_cons (a : Char) (rest : List Char) (c : Char) :
    rfindChar (a :: rest) c =
      if 0 ≤ rfindChar rest c then rfindChar rest c + 1
      else if a = c then 0 else -1 := rfl

theorem stepEnd_eq (t : List Char) (mc i : Nat) :
    stepEnd t mc i =
      if (mc / 2 : Int) <
          max (rfindChar ((t.drop i).take (min (i + mc) t.length - i)) '\n')
              (rfindChar ((t.drop i).take (min (i + mc) t.length - i)) '.')
      then i + (max (rfindChar ((t.drop i).take (min (i + mc) t.length - i)) '\n')
                (rfindChar ((t.drop i).take (min (i + mc) t.length - i)) '.')).toNat + 1
      else min (i + mc) t.length := rfl

theorem scenB_norm : normalizeText scenB = scenB := by
  show pyStrip (replaceCRLF scenB) = scenB
  rw [replaceCRLF_of_no_cr scenB scenB_no_cr]
  have e1 : List.replicate 2900 'a' = 'a' :: List.replicate 2899 'a' := by
    exact List.replicate_succ ..
  have e2 : List.replicate 3949 'a' = List.replicate 3948 'a' ++ ['a'] := by
    exact List.replicate_succ' ..
  have hshape : scenB = 'a' :: ((List.replicate 2899 'a' ++
      '\n' :: (List.replicate 149 'a' ++ '.' :: List.replicate 3948 'a')) ++ ['a']) := by
    show List.replicate 2900 'a' ++
        '\n' :: (List.replicate 149 'a' ++ '.' :: List.replicate 3949 'a') = _
    rw [e1, e2]
    simp only [List.cons_append, List.append_assoc]
  rw [hshape]
  exact pyStrip_eq_self 'a' 'a' _ (by decide) (by decide)

theorem scenB_candidate :
    scenB.take 3000 = List.replicate 2900 'a' ++ '\n' :: List.replicate 99 'a' := by
  show (List.replicate 2900 'a' ++
      '\n' :: (List.replicate 149 'a' ++ '.' :: List.replicate 3949 'a')).take 3000 = _
  rw [List.take_append_eq_append_take, List.take_replicate, List.length_replicate]
  rw [show (min 3000 2900 : Nat) = 2900 by norm_num,
      show (3000 - 2900 : Nat) = 100 by norm_num]
  congr 1

theorem scenB_stepEnd : stepEnd scenB 3000 0 = 2901 := by
  have hrest1 : rfindChar (List.replicate 99 'a') '\n' = -1 :=
    rfindChar_replicate _ _ _ (by decide)
  have hin1 : rfindChar ('\n' :: List.replicate 99 'a') '\n' = 0 := by
    rw [rfindChar_cons, hrest1]
    decide
  have h1 : rfindChar (List.replicate 2900 'a' ++ '\n' :: List.replicate 99 'a') '\n'
      = 2900 := by
    rw [rfindChar_append, hin1, if_pos (le_refl (0 : Int)), List.length_replicate]
    norm_num
  have hrest2 : rfindChar (List.replicate 99 'a') '.' = -1 :=
    rfindChar_replicate _ _ _ (by decide)
  have hin2 : rfindChar ('\n' :: List.replicate 99 'a') '.' = -1 := by
    rw [rfindChar_cons, hrest2]
    decide
  have h2 : rfindChar (List.replicate 2900 'a' ++ '\n' :: List.replicate 99 'a') '.'
      = -1 := by
    rw [rfindChar_append, hin2, if_neg (by norm_num : ¬ (0 : Int) ≤ -1)]
    exact rfindChar_replicate _ _ _ (by decide)
  rw [stepEnd_eq, scenB_length, List.drop_zero]
  rw [show (min (0 + 3000) 7000 - 0 : Nat) = 3000 by norm_num]
  rw [scenB_candidate, h1, h2]
  decide

theorem scenB_take_2901 : scenB.take 2901 = List.replicate 2900 'a' ++ ['\n'] := by
  show (List.replicate 2900 'a' ++
      '\n' :: (List.replicate 149 'a' ++ '.' :: List.replicate 3949 'a')).take 2901 = _
  rw [List.take_append_eq_append_take, List.take_replicate, List.length_replicate]
  rw [show (min 2901 2900 : Nat) = 2900 by norm_num,
      show (2901 - 2900 : Nat) = 1 by norm_num]
  congr 1

theorem pyStrip_first_window :
    pyStrip (List.replicate 2900 'a' ++ ['\n']) = List.replicate 2900 'a' := by
  have e1 : List.replicate 2900 'a' = 'a' :: List.replicate 2899 'a' := by
    exact List.replicate_succ ..
  have e2 : List.replicate 2900 'a' = List.replicate 2899 'a' ++ ['a'] := by
    exact List.replicate_succ' ..
  show ((List.replicate 2900 'a' ++ ['\n']).dropWhile isPySpace).rdropWhile isPySpace = _
  rw [show List.replicate 2900 'a' ++ ['\n'] = 'a' :: (List.replicate 2899 'a' ++ ['\n']) by
    rw [e1, List.cons_append]]
  rw [List.dropWhile_cons_of_neg (by decide)]
  rw [show 'a' :: (List.replicate 2899 'a' ++ ['\n'])
      = ('a' :: List.replicate 2899 'a') ++ ['\n'] from (List.cons_append _ _ _).symm]
  rw [List.rdropWhile_concat_pos _ _ _ (by decide)]
  rw [show ('a' : Char) :: List.replicate 2899 'a' = List.replicate 2899 'a' ++ ['a'] by
    rw [← e1, e2]]
  rw [List.rdropWhile_concat_neg _ _ _ (by decide)]
  rw [← e2]

theorem scenB_first_chunk :
    (chunk_text scenB 3000).head? = some (List.replicate 2900 'a') := by
  have hct : chunk_text scenB 3000 = chunkLoop scenB 3000 scenB.length 0 := by
    show (if (normalizeText scenB).length ≤ 3000 then [normalizeText scenB]
          else chunkLoop (normalizeText scenB) 3000 (normalizeText scenB).length 0) = _
    rw [scenB_norm]
    rw [if_neg (by rw [scenB_length]; norm_num)]
  rw [hct]
  rw [chunkLoop_cons scenB 3000 scenB.length 0 (by rw [scenB_length]; norm_num)
      (by rw [scenB_length]; norm_num)]
  rw [List.head?_cons, scenB_stepEnd, List.drop_zero, Nat.sub_zero]
  rw [scenB_take_2901, pyStrip_first_window]

/-! ### Facts about the orchestrator -/

theorem mapStage_cons (C : Collab) (pw : Nat) (c : List Char)
    (rest : List (List Char)) (i : Nat) :
    mapStage C pw (c :: rest) i =
      match C.summarize_chunk c pw with
      | .error e => (.error (.mapFailure i e), [.mapCall i])
      | .ok s =>
        match mapStage C pw rest (i + 1) with
        | (.error err, tr) => (.error err, .mapCall i :: tr)
        | (.ok ss, tr) => (.ok (pyStrip s :: ss), .mapCall i :: tr) := rfl

theorem mapStage_error_of (C : Collab) (pw : Nat) :
    ∀ (l : List (List Char)) (j i : Nat) (c : List Char) (e : String),
      l.get? j = some c →
      C.summarize_chunk c pw = .error e →
      (∀ m cm, m < j → l.get? m = some cm →
        ∃ s, C.summarize_chunk cm pw = .ok s) →
      ∃ tr, mapStage C pw l i = (.error (.mapFailure (i + j) e), tr) ∧
        ∀ x ∈ tr, ∃ m, x = Call.mapCall m := by
  intro l
  induction l with
  | nil =>
    intro j i c e hj _ _
    simp [List.get?] at hj
  | cons c0 rest ih =>
    intro j i c e hj hfail hpre
    cases j with
    | zero =>
      simp only [List.get?] at hj
      injection hj with hj
      subst hj
      refine ⟨[.mapCall i], ?_, ?_⟩
      · rw [mapStage_cons, hfail]
        simp
      · intro x hx
        rcases List.mem_cons.mp hx with hx | hx
        · exact ⟨i, hx⟩
        · simp at hx
    | succ j =>
      obtain ⟨s0, hs0⟩ := hpre 0 c0 (Nat.succ_pos j) rfl
      obtain ⟨tr, htr, hmap⟩ := ih j (i + 1) c e hj hfail
        (fun m cm hm hcm => hpre (m + 1) cm (by omega) hcm)
      refine ⟨.mapCall i :: tr, ?_, ?_⟩
      · have harith : i + 1 + j = i + (j + 1) := by omega
        rw [mapStage_cons, hs0, htr, harith]
      · intro x hx
        rcases List.mem_cons.mp hx with hx | hx
        · exact ⟨i, hx⟩
        · exact hmap x hx

/-! ### Claim theorems for the chunker -/

theorem chunk_text_eq (text : List Char) (max_chars : Nat) :
    chunk_text text max_chars =
      if (normalizeText text).length ≤ max_chars then [normalizeText text]
      else chunkLoop (normalizeText text) max_chars (normalizeText text).length 0 := rfl

theorem chunkLoop_length_le (t : List Char) (mc : Nat) :
    ∀ fuel i, ∀ ch ∈ chunkLoop t mc fuel i, ch.length ≤ mc := by
  intro fuel
  induction fuel with
  | zero => intro i ch hch; simp [chunkLoop] at hch
  | succ fuel ih =>
    intro i ch hch
    by_cases hi : i < t.length
    · rw [chunkLoop_cons t mc (fuel + 1) i (Nat.succ_pos fuel) hi] at hch
      rcases List.mem_cons.mp hch with hch | hch
      · subst hch
        have hb := (stepEnd_le t mc i hi).2
        have h1 := pyStrip_length_le ((t.drop i).take (stepEnd t mc i - i))
        have h2 : ((t.drop i).take (stepEnd t mc i - i)).length
            ≤ stepEnd t mc i - i := by
          simp [List.length_take]
        omega
      · exact ih (stepEnd t mc i) ch hch
    · rw [chunkLoop_nil t mc _ i (by omega)] at hch
      simp at hch

/-- C5: for every input whose normalized length is at most `max_chars`,
`chunk_text` returns exactly the one-element sequence holding the whole
normalized (trimmed) text, with no boundary search. -/
theorem chunk_text_short_circuit (text : List Char) (max_chars : Nat)
    (hmc : 0 < max_chars) (hle : (normalizeText text).length ≤ max_chars) :
    chunk_text text max_chars = [normalizeText text] := by
  rw [chunk_text_eq, if_pos hle]

theorem chunk_text_short_circuit_witness :
    0 < 3000 ∧ (normalizeText ['h', 'i']).length ≤ 3000 ∧
      chunk_text ['h', 'i'] 3000 = [normalizeText ['h', 'i']] :=
  ⟨by norm_num, by decide,
   chunk_text_short_circuit ['h', 'i'] 3000 (by norm_num) (by decide)⟩

/-- C2: for every input text and positive `max_chars`, every chunk returned
by `chunk_text` has length at most `max_chars`. -/
theorem chunk_text_length_bound (text : List Char) (max_chars : Nat)
    (hmc : 0 < max_chars) :
    ∀ ch ∈ chunk_text text max_chars, ch.length ≤ max_chars := by
  intro ch hch
  rw [chunk_text_eq] at hch
  by_cases hle : (normalizeText text).length ≤ max_chars
  · rw [if_pos hle] at hch
    rcases List.mem_cons.mp hch with hch | hch
    · subst hch; exact hle
    · simp at hch
  · rw [if_neg hle] at hch
    exact chunkLoop_length_le _ _ _ _ ch hch

theorem chunk_text_length_bound_witness :
    0 < 2 ∧ ∀ ch ∈ chunk_text ['a', 'b', 'c'] 2, ch.length ≤ 2 :=
  ⟨by norm_num, chunk_text_length_bound ['a', 'b', 'c'] 2 (by norm_num)⟩

/-- C9: for every positive `max_chars`, each iteration of the cursor loop
strictly advances the cursor (in both branches the new end position exceeds
the cursor), so the loop needs at most `length - cursor` iterations: any
fuel of at least that size computes the same result. -/
theorem chunk_text_terminates (text : List Char) (max_chars : Nat)
    (hmc : 0 < max_chars) :
    (∀ i, i < (normalizeText text).length →
      i < stepEnd (normalizeText text) max_chars i) ∧
    (∀ i fuel, (normalizeText text).length - i ≤ fuel →
      chunkLoop (normalizeText text) max_chars fuel i
        = chunkLoop (normalizeText text) max_chars
            ((normalizeText text).length - i) i) := by
  constructor
  · intro i hi
    exact stepEnd_gt _ max_chars i hmc hi
  · intro i fuel hf
    exact chunkLoop_fuel_eq _ max_chars hmc fuel
      ((normalizeText text).length - i) i hf (le_refl _)

theorem chunk_text_terminates_witness :
    0 < 2 ∧ 0 < stepEnd (normalizeText ['a', 'b', 'c']) 2 0 :=
  ⟨by norm_num,
   (chunk_text_terminates ['a', 'b', 'c'] 2 (by norm_num)).1 0 (by decide)⟩

/-- C3: for every input and positive `max_chars`, the chunks are the
whitespace-trims of a partition of the normalized input into contiguous,
in-order, non-overlapping slices: re-inserting the trimmed whitespace and
concatenating reproduces the normalized text exactly. -/
theorem chunk_text_reconstruction (text : List Char) (max_chars : Nat)
    (hmc : 0 < max_chars) :
    ∃ pieces : List (List Char),
      pieces.flatten = normalizeText text ∧
      chunk_text text max_chars = pieces.map pyStrip := by
  rw [chunk_text_eq]
  by_cases hle : (normalizeText text).length ≤ max_chars
  · refine ⟨[normalizeText text], by simp, ?_⟩
    rw [if_pos hle]
    simp only [List.map_cons, List.map_nil]
    rw [show pyStrip (normalizeText text) = normalizeText text from
      pyStrip_idem (replaceCRLF text)]
  · rw [if_neg hle]
    obtain ⟨pieces, h1, h2, _⟩ := chunkLoop_pieces (normalizeText text) max_chars
      hmc (normalizeText text).length 0 (by omega)
    exact ⟨pieces, by simpa using h1, h2⟩

theorem chunk_text_reconstruction_witness :
    0 < 2 ∧ ∃ pieces : List (List Char),
      pieces.flatten = normalizeText ['a', 'b', 'c'] ∧
      chunk_text ['a', 'b', 'c'] 2 = pieces.map pyStrip :=
  ⟨by norm_num, chunk_text_reconstruction ['a', 'b', 'c'] 2 (by norm_num)⟩

/-- C4 counterexample: the input `"a   b"` is non-empty and already trimmed,
`max_chars = 2` is positive, and yet `chunk_text` returns an empty chunk
(the middle window consists solely of spaces, which `strip` erases). -/
theorem chunk_text_empty_chunk_counterexample :
    (['a', ' ', ' ', ' ', 'b'] : List Char) ≠ [] ∧
    normalizeText ['a', ' ', ' ', ' ', 'b'] = ['a', ' ', ' ', ' ', 'b'] ∧
    [] ∈ chunk_text ['a', ' ', ' ', ' ', 'b'] 2 := by decide

/-- C4 amended: every returned chunk is the whitespace-trim of a non-empty
slice of the normalized text; in particular a chunk can be the empty string
only when its untrimmed slice consists entirely of whitespace. -/
theorem chunk_text_nonempty_amended (text : List Char) (max_chars : Nat)
    (hmc : 0 < max_chars) (hne : normalizeText text ≠ []) :
    ∃ pieces : List (List Char),
      pieces.flatten = normalizeText text ∧
      chunk_text text max_chars = pieces.map pyStrip ∧
      (∀ p ∈ pieces, p ≠ []) ∧
      (∀ p ∈ pieces, pyStrip p = [] → ∀ c ∈ p, isPySpace c) := by
  rw [chunk_text_eq]
  by_cases hle : (normalizeText text).length ≤ max_chars
  · refine ⟨[normalizeText text], by simp, ?_, ?_, ?_⟩
    · rw [if_pos hle]
      simp only [List.map_cons, List.map_nil]
      rw [show pyStrip (normalizeText text) = normalizeText text from
        pyStrip_idem (replaceCRLF text)]
    · intro p hp
      rcases List.mem_cons.mp hp with hp | hp
      · subst hp; exact hne
      · simp at hp
    · intro p _ hps
      exact (pyStrip_eq_nil_iff p).mp hps
  · rw [if_neg hle]
    obtain ⟨pieces, h1, h2, h3⟩ := chunkLoop_pieces (normalizeText text) max_chars
      hmc (normalizeText text).length 0 (by omega)
    exact ⟨pieces, by simpa using h1, h2, h3,
      fun p _ hps => (pyStrip_eq_nil_iff p).mp hps⟩

theorem chunk_text_nonempty_amended_witness :
    0 < 2 ∧ normalizeText ['a', ' ', ' ', ' ', 'b'] ≠ [] ∧
    ∃ pieces : List (List Char),
      pieces.flatten = normalizeText ['a', ' ', ' ', ' ', 'b'] ∧
      chunk_text ['a', ' ', ' ', ' ', 'b'] 2 = pieces.map pyStrip ∧
      (∀ p ∈ pieces, p ≠ []) ∧
      (∀ p ∈ pieces, pyStrip p = [] → ∀ c ∈ p, isPySpace c) :=
  ⟨by norm_num, by decide,
   chunk_text_nonempty_amended ['a', ' ', ' ', ' ', 'b'] 2 (by norm_num) (by decide)⟩

/-- C10 counterexample: on the input `"a\r\r\nb"` the CR-LF replacement is
not idempotent (it leaves a fresh CR-LF pair), so `chunk_text` on the raw
input differs from `chunk_text` on the normalized input. -/
theorem chunk_text_normalize_counterexample :
    chunk_text ['a', '\r', '\r', '\n', 'b'] 10
      ≠ chunk_text (normalizeText ['a', '\r', '\r', '\n', 'b']) 10 := by decide

/-- C10 amended: `chunk_text text max_chars` equals `chunk_text` applied to
the already-normalized text whenever the normalized text contains no
remaining CR-LF pair (a leftover pair can only arise from overlapping
sequences such as `"\r\r\n"`). -/
theorem chunk_text_normalize_amended (text : List Char) (max_chars : Nat)
    (h : containsCRLF (normalizeText text) = false) :
    chunk_text text max_chars = chunk_text (normalizeText text) max_chars := by
  rw [chunk_text_eq, chunk_text_eq, normalizeText_idem_of text h]

theorem chunk_text_normalize_amended_witness :
    containsCRLF (normalizeText ['a', '\r', '\n', 'b']) = false ∧
    chunk_text ['a', '\r', '\n', 'b'] 5
      = chunk_text (normalizeText ['a', '\r', '\n', 'b']) 5 :=
  ⟨by decide, chunk_text_normalize_amended ['a', '\r', '\n', 'b'] 5 (by decide)⟩

/-- C1: for a normalized text longer than `max_chars` (`max_chars`
positive), each iteration of the loop takes the window from the cursor to
`cursor + max_chars` (or the text end if shorter), sets `split_pos` to the
larger of the last newline index and the last period index inside that
window (relative to the window start, `-1` when absent), ends the chunk at
`split_pos + 1` exactly when `split_pos` exceeds `max_chars // 2`, and at
the raw window end otherwise; the backward search sees only the window, so
in Scenario B (newline at 2,900, period at 3,050, `max_chars = 3000`) the
first chunk ends at the newline, position 2,901. -/
theorem chunk_text_step_policy (text : List Char) (max_chars : Nat)
    (hmc : 0 < max_chars) (hbig : max_chars < (normalizeText text).length) :
    (∀ i fuel, i < (normalizeText text).length →
      chunkLoop (normalizeText text) max_chars (fuel + 1) i =
        pyStrip (((normalizeText text).drop i).take
            (stepEnd (normalizeText text) max_chars i - i)) ::
          chunkLoop (normalizeText text) max_chars fuel
            (stepEnd (normalizeText text) max_chars i)) ∧
    (∀ i,
      stepEnd (normalizeText text) max_chars i =
        if (max_chars / 2 : Int) <
            max (rfindChar (((normalizeText text).drop i).take
                  (min (i + max_chars) (normalizeText text).length - i)) '\n')
                (rfindChar (((normalizeText text).drop i).take
                  (min (i + max_chars) (normalizeText text).length - i)) '.')
        then i + (max (rfindChar (((normalizeText text).drop i).take
                  (min (i + max_chars) (normalizeText text).length - i)) '\n')
                (rfindChar (((normalizeText text).drop i).take
                  (min (i + max_chars) (normalizeText text).length - i)) '.')).toNat + 1
        else min (i + max_chars) (normalizeText text).length) ∧
    stepEnd scenB 3000 0 = 2901 ∧
    (chunk_text scenB 3000).head? = some (List.replicate 2900 'a') := by
  refine ⟨?_, ?_, scenB_stepEnd, scenB_first_chunk⟩
  · intro i fuel hi
    exact chunkLoop_cons (normalizeText text) max_chars (fuel + 1) i
      (Nat.succ_pos fuel) hi
  · intro i
    exact stepEnd_eq (normalizeText text) max_chars i

theorem chunk_text_step_policy_witness :
    0 < 2 ∧ 2 < (normalizeText ['a', 'b', 'c', 'd']).length ∧
      stepEnd scenB 3000 0 = 2901 :=
  ⟨by norm_num, by decide,
   (chunk_text_step_policy ['a', 'b', 'c', 'd'] 2 (by norm_num) (by decide)).2.2.1⟩

/-- C7: on a cache miss, when the extracted text is empty or whitespace-only
the orchestrator fails with the extraction-empty error right after the
extraction call: no chunking, no map-stage and no reduce-stage call occurs,
and the cache is unchanged. -/
theorem orchestrator_extraction_empty (C : Collab) (cache : Cache)
    (max_chars per_chunk_words target_words : Nat) (file_bytes : List Nat)
    (hmiss : List.lookup (C.file_hash_bytes file_bytes) cache = none)
    (hempty : pyStrip (C.extract_text file_bytes) = []) :
    summarize_uploaded_pdf C cache max_chars per_chunk_words target_words file_bytes
      = (.error .extractionEmpty, [.extractCall], cache) := by
  simp only [summarize_uploaded_pdf, hmiss]
  rw [if_pos hempty]

theorem orchestrator_extraction_empty_witness :
    summarize_uploaded_pdf collabBlank [] 5 5 5 [1]
      = (.error .extractionEmpty, [.extractCall], []) :=
  orchestrator_extraction_empty collabBlank [] 5 5 5 [1] rfl (by decide)

/-- C6: on a cache miss with non-empty extracted text, if the service call
for the chunk at (0-based) position `j` fails with cause `e` while every
earlier chunk succeeds, the whole run aborts with a map failure naming that
chunk's (1-based) loop index `j + 1` and carrying `e`, and the reduce-stage
(aggregation) call never occurs: no partial final summary is produced. -/
theorem orchestrator_map_failure (C : Collab) (cache : Cache)
    (max_chars per_chunk_words target_words : Nat) (file_bytes : List Nat)
    (j : Nat) (c : List Char) (e : String)
    (hmiss : List.lookup (C.file_hash_bytes file_bytes) cache = none)
    (htext : ¬ pyStrip (C.extract_text file_bytes) = [])
    (hj : (chunk_text (C.extract_text file_bytes) max_chars).get? j = some c)
    (hfail : C.summarize_chunk c per_chunk_words = .error e)
    (hpre : ∀ m cm, m < j →
      (chunk_text (C.extract_text file_bytes) max_chars).get? m = some cm →
      ∃ s, C.summarize_chunk cm per_chunk_words = .ok s) :
    (summarize_uploaded_pdf C cache max_chars per_chunk_words target_words
        file_bytes).1 = .error (.mapFailure (j + 1) e) ∧
    Call.reduceCall ∉
      (summarize_uploaded_pdf C cache max_chars per_chunk_words target_words
        file_bytes).2.1 := by
  obtain ⟨tr, htr, hmap⟩ := mapStage_error_of C per_chunk_words
    (chunk_text (C.extract_text file_bytes) max_chars) j 1 c e hj hfail hpre
  have harith : 1 + j = j + 1 := by omega
  rw [harith] at htr
  have hrun : summarize_uploaded_pdf C cache max_chars per_chunk_words
      target_words file_bytes
      = (.error (.mapFailure (j + 1) e), .extractCall :: .chunkCall :: tr, cache) := by
    simp only [summarize_uploaded_pdf, hmiss, htr]
    rw [if_neg htext]
  rw [hrun]
  refine ⟨rfl, ?_⟩
  intro hmem
  rcases List.mem_cons.mp hmem with h | h
  · cases h
  · rcases List.mem_cons.mp h with h | h
    · cases h
    · obtain ⟨m, hm⟩ := hmap _ h
      cases hm

theorem orchestrator_map_failure_witness :
    (summarize_uploaded_pdf collabMapFail [] 1 7 9 [0]).1
        = .error (.mapFailure 2 "quota") ∧
    Call.reduceCall ∉ (summarize_uploaded_pdf collabMapFail [] 1 7 9 [0]).2.1 :=
  orchestrator_map_failure collabMapFail [] 1 7 9 [0] 1 ['b'] "quota"
    rfl (by decide) (by decide) rfl
    (by
      intro m cm hm hcm
      have hm0 : m = 0 := by omega
      subst hm0
      have hcc : chunk_text (collabMapFail.extract_text [0]) 1 = [['a'], ['b']] := by
        decide
      rw [hcc] at hcm
      simp only [List.get?] at hcm
      injection hcm with hcm
      exact ⟨['a'], by rw [← hcm]; rfl⟩)

/-- C8: the cache fingerprint is computed from the raw uploaded bytes before
any extraction work, so after a run that completed successfully, a second
run on byte-identical input returns the cached final summary and performs
no extraction, chunking, or service calls (its call log is empty). -/
theorem orchestrator_cache_round_trip (C : Collab) (cache : Cache)
    (max_chars per_chunk_words target_words : Nat) (file_bytes : List Nat)
    (s : List Char) (tr : List Call) (cache' : Cache)
    (hrun : summarize_uploaded_pdf C cache max_chars per_chunk_words
        target_words file_bytes = (.ok s, tr, cache')) :
    summarize_uploaded_pdf C cache' max_chars per_chunk_words target_words
      file_bytes = (.ok s, [], cache') := by
  have hhit : List.lookup (C.file_hash_bytes file_bytes) cache' = some s := by
    cases hc : List.lookup (C.file_hash_bytes file_bytes) cache with
    | some v =>
      have hv : summarize_uploaded_pdf C cache max_chars per_chunk_words
          target_words file_bytes = (.ok v, [], cache) := by
        simp only [summarize_uploaded_pdf, hc]
      rw [hv] at hrun
      simp only [Prod.mk.injEq, Except.ok.injEq] at hrun
      obtain ⟨h1, _, h3⟩ := hrun
      rw [← h3, hc, h1]
    | none =>
      by_cases hemp : pyStrip (C.extract_text file_bytes) = []
      · have hv : summarize_uploaded_pdf C cache max_chars per_chunk_words
            target_words file_bytes
            = (.error .extractionEmpty, [.extractCall], cache) := by
          simp only [summarize_uploaded_pdf, hc]
          rw [if_pos hemp]
        rw [hv] at hrun
        simp at hrun
      · rcases hms : mapStage C per_chunk_words
            (chunk_text (C.extract_text file_bytes) max_chars) 1 with ⟨res, trm⟩
        cases res with
        | error err =>
          have hv : summarize_uploaded_pdf C cache max_chars per_chunk_words
              target_words file_bytes
              = (.error err, .extractCall :: .chunkCall :: trm, cache) := by
            simp only [summarize_uploaded_pdf, hc, hms]
            rw [if_neg hemp]
          rw [hv] at hrun
          simp at hrun
        | ok ss =>
          cases hag : C.aggregate_summaries ss target_words with
          | error eagg =>
            have hv : summarize_uploaded_pdf C cache max_chars per_chunk_words
                target_words file_bytes
                = (.error (.reduceFailure eagg),
                   .extractCall :: .chunkCall :: (trm ++ [.reduceCall]), cache) := by
              simp only [summarize_uploaded_pdf, hc, hms, hag]
              rw [if_neg hemp]
            rw [hv] at hrun
            simp at hrun
          | ok fin =>
            have hv : summarize_uploaded_pdf C cache max_chars per_chunk_words
                target_words file_bytes
                = (.ok fin,
                   .extractCall :: .chunkCall :: (trm ++ [.reduceCall]),
                   (C.file_hash_bytes file_bytes, fin) :: cache) := by
              simp only [summarize_uploaded_pdf, hc, hms, hag]
              rw [if_neg hemp]
            rw [hv] at hrun
            simp only [Prod.mk.injEq, Except.ok.injEq] at hrun
            obtain ⟨h1, _, h3⟩ := hrun
            rw [← h3]
            simp [List.lookup, h1]
  simp only [summarize_uploaded_pdf, hhit]

theorem orchestrator_cache_round_trip_witness :
    summarize_uploaded_pdf collabOk [(0, ['s'])] 10 3 4 [1]
      = (.ok ['s'], [], [(0, ['s'])]) :=
  orchestrator_cache_round_trip collabOk [] 10 3 4 [1] ['s']
    [.extractCall, .chunkCall, .mapCall 1, .reduceCall] [(0, ['s'])] rfl
